import Mathlib

/-!
Shallow embedding of `src/LegalDocumentProcessingSystem.py`.

The spaCy pipeline `nlp` is the external "linguistic annotator" of the spec: it is
modelled as an abstract function `Annotator : String → AnnotatedDoc` supplying
sentence spans (with their noun chunks), tokens, document noun chunks and named
entities.  Python strings are Lean `String`s; `str.lower()` is the character-wise
`Char.toLower` map and `str.strip()` drops whitespace at both ends.  `re.search`
with the three clause patterns `(?i)(stem1|stem2|...).{0,200}` succeeds exactly
when some alternative stem occurs in the sentence case-insensitively, because the
trailing context window `.{0,200}` may match the empty string; the patterns are
embedded by their stem lists.  `collections.Counter(all_terms).items()` yields the
keys in first-insertion order with their multiplicities; `sorted(key=λx: x[1],
reverse=True)` is a stable descending sort by count; the slice `l[:top_n]` keeps
Python's semantics including negative `top_n`.  `ProcessPoolExecutor.map` applies
the worker function to every document and yields the results in input order
regardless of completion order; the plain `analyze_term_frequency` uses that
in-order semantics, and `analyze_term_frequency_sched` additionally models an
arbitrary completion order of the worker pool for the determinism analysis.
The processor object `self` is threaded explicitly: every method returns its
result, and the method-call wrappers also return the post-call state.
-/

namespace LegalDoc

/-- Python `str.lower()`: character-wise lowering of the string's characters. -/
def lowerStr (s : String) : String := ⟨s.data.map Char.toLower⟩

/-- Does `pat` occur at the very start of `s`? -/
def prefixMatch : List Char → List Char → Bool
  | [], _ => true
  | _ :: _, [] => false
  | a :: as, b :: bs => a == b && prefixMatch as bs

/-- Does `pat` occur contiguously somewhere in `s`?  (Python's `pat in s`.) -/
def isSubstrOf (pat : List Char) : List Char → Bool
  | [] => prefixMatch pat []
  | c :: cs => prefixMatch pat (c :: cs) || isSubstrOf pat cs

/-- Python `str.strip()`: drop whitespace from both ends. -/
def pyStrip (s : String) : String :=
  ⟨(((s.data.dropWhile Char.isWhitespace).reverse.dropWhile Char.isWhitespace).reverse)⟩

/-- Python's slice `l[:n]`, including the negative-`n` case, where the stop
index counts from the end of the list (clamped at 0). -/
def pySliceTo (l : List α) (n : Int) : List α :=
  if 0 ≤ n then l.take n.toNat else l.take (l.length - (-n).toNat)

/-- One sentence span produced by the annotator: its raw text and its noun-chunk
texts (`sent.text`, `sent.noun_chunks`). -/
structure SentSpan where
  text : String
  nounChunks : List String
deriving DecidableEq

/-- The annotator's output for one document (`doc = nlp(document)`): sentence
spans (`doc.sents`), tokens (`len(doc)` is the token count), document-level noun
chunks (`doc.noun_chunks`) and named entities (`doc.ents`, label and text). -/
structure AnnotatedDoc where
  sents : List SentSpan
  tokens : List String
  nounChunks : List String
  ents : List (String × String)
deriving DecidableEq

/-- The external linguistic annotator (`nlp`). -/
abbrev Annotator := String → AnnotatedDoc

/-- The processor object: its only data field, set in `__init__`.  The Python
field is a `set`; it is only ever consumed by `any(... for legal_term in
self.legal_terms)`, which is insensitive to iteration order, so a list of the
same elements models it. -/
structure LegalDocumentProcessor where
  legal_terms : List String
deriving DecidableEq

/-- Python `LegalDocumentProcessor()`: the fixed legal vocabulary of the constructor. -/
def LegalDocumentProcessor.init : LegalDocumentProcessor :=
  { legal_terms := ["liability", "indemnification", "termination", "warranty",
                    "confidentiality", "arbitration", "jurisdiction", "force majeure"] }

/-- Python `any(legal_term in s for legal_term in vocab)`. -/
def vocabHit (vocab : List String) (s : String) : Bool :=
  vocab.any fun v => isSubstrOf v.data s.data

/-- The three fixed clause patterns of `extract_clauses`, each given by the list
of alternative stems of its regular expression (see the header comment for why
the regex reduces to these stems). -/
def clausePatterns : List (String × List String) :=
  [("termination", ["terminate", "termination", "cancel"]),
   ("liability", ["liable", "liability", "indemnify", "indemnification"]),
   ("confidentiality", ["confidential", "non-disclosure"])]

/-- Python `re.search(r"(?i)(stem1|...|stemk).{0,200}", sentence) is not None`:
some stem occurs in the sentence, case-insensitively. -/
def reSearch (stems : List String) (sentence : String) : Bool :=
  stems.any fun stem => isSubstrOf stem.data (lowerStr sentence).data

/-- Python `[sent.text.strip() for sent in doc.sents]`. -/
def docSentences (ann : Annotator) (document : String) : List String :=
  (ann document).sents.map fun sent => pyStrip sent.text

/-- Method `extract_clauses`: initialise the three category lists, segment into
sentences, and append to a category every sentence its pattern matches, in
document order.  `self` is unused because the method reads no field: the
patterns are a literal inside the method body. -/
def extract_clauses (self : LegalDocumentProcessor) (ann : Annotator)
    (document : String) : List (String × List String) :=
  let sentences := docSentences ann document
  clausePatterns.map fun p => (p.1, sentences.filter fun sentence => reSearch p.2 sentence)

/-- Method `_process_single_doc`: keep the noun chunks whose lowercased text contains a
vocabulary entry, recording the lowercased text. -/
def process_single_doc (self : LegalDocumentProcessor) (ann : Annotator)
    (document : String) : List String :=
  (((ann document).nounChunks.filter fun chunk =>
      vocabHit self.legal_terms (lowerStr chunk)).map lowerStr)

/-- The keys of `Counter(l)` in first-insertion order: a key is emitted the
first time it is seen and skipped afterwards. -/
def counterKeysAux (seen : List String) : List String → List String
  | [] => []
  | t :: ts =>
    if seen.contains t then counterKeysAux seen ts
    else t :: counterKeysAux (t :: seen) ts

/-- The keys of `Counter(l)` in first-insertion order. -/
def counterKeys (l : List String) : List String := counterKeysAux [] l

/-- Python `Counter(l).items()`: keys in first-insertion order, each paired with its
multiplicity in `l`. -/
def counterItems (l : List String) : List (String × Nat) :=
  (counterKeys l).map fun t => (t, l.count t)

/-- Insert an entry into a list sorted by count descending, after every entry of
strictly larger count and before everything else. -/
def insertDesc (p : String × Nat) : List (String × Nat) → List (String × Nat)
  | [] => [p]
  | q :: qs => if p.2 < q.2 then q :: insertDesc p qs else p :: q :: qs

/-- Python `sorted(items, key=lambda x: x[1], reverse=True)`: the stable sort by count
descending (ties keep their original relative order). -/
def sortDescByCount (l : List (String × Nat)) : List (String × Nat) :=
  l.foldr insertDesc []

/-- The full ranked list built by `analyze_term_frequency` before the final
`[:top_n]` slice: concatenate the per-document term lists, count them, filter to
the vocabulary, and stably sort by count descending. -/
def rankedAll (self : LegalDocumentProcessor) (ann : Annotator)
    (documents : List String) : List (String × Nat) :=
  let processed_docs := documents.map (process_single_doc self ann)
  let all_terms := processed_docs.foldl (· ++ ·) []
  let term_freq := counterItems all_terms
  let legal_term_freq := term_freq.filter fun tc => vocabHit self.legal_terms (lowerStr tc.1)
  sortDescByCount legal_term_freq

/-- Method `analyze_term_frequency`: `executor.map` delivers each document's
`_process_single_doc` result in input order (completion-order nondeterminism is
modelled separately by `analyze_term_frequency_sched`); the rest of the method
aggregates, filters, ranks and slices. -/
def analyze_term_frequency (self : LegalDocumentProcessor) (ann : Annotator)
    (documents : List String) (top_n : Int) : List (String × Nat) :=
  pySliceTo (rankedAll self ann documents) top_n

/-- One worker completion per scheduled index: the pool runs
`_process_single_doc` on document `i` for each `i` in completion order. -/
def workerResults (self : LegalDocumentProcessor) (ann : Annotator)
    (documents : List String) (sched : List Nat) : List (Nat × List String) :=
  sched.map fun i => (i, process_single_doc self ann (documents.getD i ""))

/-- The fan-in of `executor.map`: collect the completed results back in input order,
by index, whatever order the workers finished in. -/
def collectInOrder (n : Nat) (results : List (Nat × List String)) : List (List String) :=
  (List.range n).map fun i => (((results.find? fun r => r.1 == i).map Prod.snd).getD [])

/-- Method `analyze_term_frequency` with the completion order `sched` of the worker pool
made explicit: the workers finish in the order `sched` (a permutation of the
document indices) and the results are collected back in input order. -/
def analyze_term_frequency_sched (self : LegalDocumentProcessor) (ann : Annotator)
    (sched : List Nat) (documents : List String) (top_n : Int) : List (String × Nat) :=
  let processed_docs := collectInOrder documents.length (workerResults self ann documents sched)
  let all_terms := processed_docs.foldl (· ++ ·) []
  let term_freq := counterItems all_terms
  let legal_term_freq := term_freq.filter fun tc => vocabHit self.legal_terms (lowerStr tc.1)
  pySliceTo (sortDescByCount legal_term_freq) top_n

/-- Method `_generate_summary`: the sentences with more than 3 noun chunks, in document
order; join the first 3 of their texts with single spaces. -/
def generate_summary (doc : AnnotatedDoc) : String :=
  let important_sentences := (doc.sents.filter fun sent => 3 < sent.nounChunks.length).map SentSpan.text
  String.intercalate " " (important_sentences.take 3)

/-- The loop body of `_extract_entities`: `if ent.label_ not in entities:
entities[ent.label_] = []` then `entities[ent.label_].append(ent.text)` — a key
is created at the end of the dictionary on first appearance, and the entry of
an existing key is extended in place. -/
def entStep (entities : List (String × List String)) (ent : String × String) :
    List (String × List String) :=
  if entities.any fun e => e.1 == ent.1 then
    entities.map fun e => if e.1 == ent.1 then (e.1, e.2 ++ [ent.2]) else e
  else
    entities ++ [(ent.1, [ent.2])]

/-- Method `_extract_entities`: build the label → texts dictionary by one pass over
`doc.ents`, creating a key at its first appearance and appending to it after. -/
def extract_entities (doc : AnnotatedDoc) : List (String × List String) :=
  doc.ents.foldl entStep []

/-- The `document_stats` record of `get_document_insights`. -/
structure DocumentStats where
  total_words : Nat
  sentences : Nat
  entities : List (String × List String)
deriving DecidableEq

/-- The record returned by `get_document_insights`. -/
structure DocumentInsights where
  summary : String
  key_clauses : List (String × List String)
  document_stats : DocumentStats
deriving DecidableEq

/-- Method `get_document_insights`: annotate once, then assemble summary, key clauses
(which re-annotates via `extract_clauses`) and statistics. -/
def get_document_insights (self : LegalDocumentProcessor) (ann : Annotator)
    (document : String) : DocumentInsights :=
  let doc := ann document
  { summary := generate_summary doc
    key_clauses := extract_clauses self ann document
    document_stats :=
      { total_words := doc.tokens.length
        sentences := doc.sents.length
        entities := extract_entities doc } }

/-- The spec's refinement variant of `analyze_term_frequency` for the
"harmless no-op" comparison: identical to the source pipeline except that the
aggregation-stage vocabulary filter (the dict comprehension building
`legal_term_freq`) is removed, so the counted terms are ranked unfiltered. -/
def analyze_term_frequency_nofilter (self : LegalDocumentProcessor) (ann : Annotator)
    (documents : List String) (top_n : Int) : List (String × Nat) :=
  let processed_docs := documents.map (process_single_doc self ann)
  let all_terms := processed_docs.foldl (· ++ ·) []
  let term_freq := counterItems all_terms
  pySliceTo (sortDescByCount term_freq) top_n

/-- A call of `extract_clauses` as a method on the object: the result paired
with the processor state after the call (the method body assigns no field). -/
def extract_clausesM (self : LegalDocumentProcessor) (ann : Annotator)
    (document : String) : (List (String × List String)) × LegalDocumentProcessor :=
  (extract_clauses self ann document, self)

/-- A call of `analyze_term_frequency` as a method on the object. -/
def analyze_term_frequencyM (self : LegalDocumentProcessor) (ann : Annotator)
    (documents : List String) (top_n : Int) : (List (String × Nat)) × LegalDocumentProcessor :=
  (analyze_term_frequency self ann documents top_n, self)

/-- A call of `get_document_insights` as a method on the object. -/
def get_document_insightsM (self : LegalDocumentProcessor) (ann : Annotator)
    (document : String) : DocumentInsights × LegalDocumentProcessor :=
  (get_document_insights self ann document, self)

/-- One invocation of the caller-facing API. -/
inductive ApiCall where
  | extractClauses (document : String)
  | analyzeTermFrequency (documents : List String) (top_n : Int)
  | getDocumentInsights (document : String)

/-- The processor state after one API call. -/
def stepCall (ann : Annotator) (self : LegalDocumentProcessor) : ApiCall → LegalDocumentProcessor
  | .extractClauses d => (extract_clausesM self ann d).2
  | .analyzeTermFrequency docs n => (analyze_term_frequencyM self ann docs n).2
  | .getDocumentInsights d => (get_document_insightsM self ann d).2

/-- The processor state after a sequence of API calls. -/
def runCalls (ann : Annotator) (self : LegalDocumentProcessor)
    (calls : List ApiCall) : LegalDocumentProcessor :=
  calls.foldl (stepCall ann) self

/-- A small concrete annotator used to evaluate the development on closed
inputs: every document is one sentence span, and two fixed documents carry
noun chunks and entities. -/
def testAnn : Annotator := fun d =>
  { sents := [{ text := d, nounChunks := if d = "docA" then ["a", "b", "c", "d"] else [] }],
    tokens := if d = "docA" then ["w", "x"] else [],
    nounChunks :=
      if d = "docA" then ["Liability Cap", "warranty period"]
      else if d = "docB" then ["the Jurisdiction", "the court", "the Jurisdiction"]
      else [],
    ents := if d = "docA" then [("ORG", "Acme"), ("DATE", "today"), ("ORG", "Beta")] else [] }

/-- The list a category is mapped to by a clause map (reading the association
list as the Python dict it models). -/
def clauseList (m : List (String × List String)) (category : String) : List String :=
  (List.lookup category m).getD []

/-- Scaling every count by a fixed factor. -/
def scaleCount (k : Nat) (p : String × Nat) : String × Nat := (p.1, k * p.2)

/-- The set of keys already seen after scanning `l` starting from `seen`
(a proof device for `counterKeysAux`). -/
def seenAfter (seen : List String) : List String → List String
  | [] => seen
  | t :: ts => if seen.contains t then seenAfter seen ts else seenAfter (t :: seen) ts

/-- How one category's entry of the entity dictionary evolves: the value already
present, extended by the texts contributed later (`none` when the category
never appears). -/
def joinEnt (o : Option (List String)) (ts : List String) : Option (List String) :=
  match o with
  | some v => some (v ++ ts)
  | none => if ts.isEmpty then none else some ts

/-! ### Helper lemmas -/

theorem counterKeysAux_subset {x : String} :
    ∀ {l seen : List String}, x ∈ counterKeysAux seen l → x ∈ l := by
  intro l
  induction l with
  | nil => intro seen h; simp [counterKeysAux] at h
  | cons t ts ih =>
    intro seen h
    simp only [counterKeysAux] at h
    split at h
    · exact List.mem_cons_of_mem _ (ih h)
    · rcases List.mem_cons.mp h with rfl | h
      · exact List.mem_cons_self _ _
      · exact List.mem_cons_of_mem _ (ih h)

theorem counterKeys_subset {x : String} {l : List String} (h : x ∈ counterKeys l) : x ∈ l :=
  counterKeysAux_subset h

theorem subset_seenAfter : ∀ (l seen : List String), seen ⊆ seenAfter seen l := by
  intro l
  induction l with
  | nil => intro seen; exact fun _ h => h
  | cons t ts ih =>
    intro seen
    simp only [seenAfter]
    split
    · exact ih seen
    · exact fun x hx => ih (t :: seen) (List.mem_cons_of_mem _ hx)

theorem mem_seenAfter_of_mem {x : String} :
    ∀ (l seen : List String), x ∈ l → x ∈ seenAfter seen l := by
  intro l
  induction l with
  | nil => intro seen h; simp at h
  | cons t ts ih =>
    intro seen h
    simp only [seenAfter]
    rcases List.mem_cons.mp h with rfl | h
    · split
      · next hc => exact subset_seenAfter ts seen (List.elem_iff.mp hc)
      · exact subset_seenAfter ts (x :: seen) (List.mem_cons_self _ _)
    · split
      · exact ih seen h
      · exact ih (t :: seen) h

theorem counterKeysAux_append : ∀ (l₁ l₂ seen : List String),
    counterKeysAux seen (l₁ ++ l₂)
      = counterKeysAux seen l₁ ++ counterKeysAux (seenAfter seen l₁) l₂ := by
  intro l₁
  induction l₁ with
  | nil => intro l₂ seen; simp [counterKeysAux, seenAfter]
  | cons t ts ih =>
    intro l₂ seen
    simp only [List.cons_append, counterKeysAux, seenAfter]
    split
    · exact ih l₂ seen
    · simp [ih l₂ (t :: seen)]

theorem counterKeysAux_eq_nil : ∀ (l seen : List String),
    (∀ x ∈ l, x ∈ seen) → counterKeysAux seen l = [] := by
  intro l
  induction l with
  | nil => intro seen _; rfl
  | cons t ts ih =>
    intro seen h
    have ht : seen.contains t := List.elem_iff.mpr (h t (List.mem_cons_self _ _))
    simp only [counterKeysAux, ht, if_pos]
    exact ih seen fun x hx => h x (List.mem_cons_of_mem _ hx)

theorem counterKeys_append_absorb {l l' : List String} (h : ∀ x ∈ l', x ∈ l) :
    counterKeys (l ++ l') = counterKeys l := by
  unfold counterKeys
  rw [counterKeysAux_append, counterKeysAux_eq_nil l' (seenAfter [] l)
    (fun x hx => mem_seenAfter_of_mem l [] (h x hx)), List.append_nil]

theorem foldl_append_eq_flatten {α : Type} :
    ∀ (L : List (List α)) (acc : List α), L.foldl (· ++ ·) acc = acc ++ L.flatten := by
  intro L
  induction L with
  | nil => intro acc; simp
  | cons l ls ih => intro acc; simp [List.foldl_cons, ih, List.append_assoc]

theorem count_flatten_replicate (k : Nat) (l : List String) (t : String) :
    ((List.replicate k l).flatten).count t = k * l.count t := by
  induction k with
  | zero => simp
  | succ n ih => simp [List.replicate_succ, List.count_append, ih, Nat.succ_mul, Nat.add_comm]

theorem pySliceTo_nil {α : Type} (n : Int) : pySliceTo ([] : List α) n = [] := by
  unfold pySliceTo; split <;> simp

theorem pySliceTo_sublist {α : Type} (l : List α) (n : Int) : (pySliceTo l n).Sublist l := by
  unfold pySliceTo; split <;> exact List.take_sublist _ _

theorem length_pySliceTo_le {α : Type} (l : List α) {n : Int} (h : 0 ≤ n) :
    ((pySliceTo l n).length : Int) ≤ n := by
  unfold pySliceTo
  rw [if_pos h]
  calc ((l.take n.toNat).length : Int) ≤ (n.toNat : Int) := by
        exact_mod_cast Nat.le_of_eq (List.length_take _ _) |>.trans (Nat.min_le_left _ _)
    _ = n := Int.toNat_of_nonneg h

theorem pySliceTo_of_length_le {α : Type} {l : List α} {n : Int}
    (h : (l.length : Int) ≤ n) : pySliceTo l n = l := by
  have hn : 0 ≤ n := le_trans (by exact_mod_cast Nat.zero_le _) h
  unfold pySliceTo
  rw [if_pos hn]
  exact List.take_of_length_le (by omega)

theorem pySliceTo_map {α β : Type} (f : α → β) (l : List α) (n : Int) :
    pySliceTo (l.map f) n = (pySliceTo l n).map f := by
  unfold pySliceTo
  simp only [List.length_map]
  split <;> rw [List.map_take]

/-- Non-increasing-by-count order, as used for the ranked term list. -/
def SortedDescByCount (l : List (String × Nat)) : Prop :=
  l.Pairwise fun a b => b.2 ≤ a.2

theorem insertDesc_perm (p : String × Nat) :
    ∀ l : List (String × Nat), (insertDesc p l).Perm (p :: l) := by
  intro l
  induction l with
  | nil => exact List.Perm.refl _
  | cons q qs ih =>
    unfold insertDesc
    split
    · exact (List.Perm.cons q ih).trans (List.Perm.swap p q qs)
    · exact List.Perm.refl _

theorem sortDescByCount_perm (l : List (String × Nat)) : (sortDescByCount l).Perm l := by
  induction l with
  | nil => exact List.Perm.refl _
  | cons p ps ih =>
    exact (insertDesc_perm p (sortDescByCount ps)).trans (List.Perm.cons p ih)

theorem insertDesc_sorted {p : String × Nat} :
    ∀ {l : List (String × Nat)}, SortedDescByCount l → SortedDescByCount (insertDesc p l) := by
  intro l
  induction l with
  | nil => intro _; simp [insertDesc, SortedDescByCount]
  | cons q qs ih =>
    intro h
    have hq := (List.pairwise_cons.mp h).1
    have hqs := (List.pairwise_cons.mp h).2
    unfold insertDesc
    split
    · next hlt =>
      refine List.pairwise_cons.mpr ⟨?_, ih hqs⟩
      intro r hr
      rcases List.mem_cons.mp (((insertDesc_perm p qs).mem_iff).mp hr) with rfl | hr
      · exact Nat.le_of_lt hlt
      · exact hq r hr
    · next hnlt =>
      refine List.pairwise_cons.mpr ⟨?_, h⟩
      intro r hr
      rcases List.mem_cons.mp hr with rfl | hr
      · exact Nat.le_of_not_lt hnlt
      · exact le_trans (hq r hr) (Nat.le_of_not_lt hnlt)

theorem sortDescByCount_sorted (l : List (String × Nat)) :
    SortedDescByCount (sortDescByCount l) := by
  induction l with
  | nil => simp [sortDescByCount, SortedDescByCount]
  | cons p ps ih => exact insertDesc_sorted ih

theorem insertDesc_map_scale {k : Nat} (hk : 0 < k) (p : String × Nat) :
    ∀ l : List (String × Nat),
      insertDesc (scaleCount k p) (l.map (scaleCount k)) = (insertDesc p l).map (scaleCount k) := by
  intro l
  induction l with
  | nil => rfl
  | cons q qs ih =>
    simp only [List.map_cons, insertDesc, scaleCount]
    have hiff : k * p.2 < k * q.2 ↔ p.2 < q.2 := by
      exact Nat.mul_lt_mul_left hk
    by_cases hlt : p.2 < q.2
    · rw [if_pos (hiff.mpr hlt), if_pos hlt]
      simp only [List.map_cons, List.cons.injEq, true_and]
      simpa [scaleCount] using ih
    · rw [if_neg (fun hc => hlt (hiff.mp hc)), if_neg hlt]
      simp [scaleCount]

theorem sortDescByCount_map_scale {k : Nat} (hk : 0 < k) :
    ∀ l : List (String × Nat),
      sortDescByCount (l.map (scaleCount k)) = (sortDescByCount l).map (scaleCount k) := by
  intro l
  induction l with
  | nil => rfl
  | cons p ps ih =>
    show insertDesc (scaleCount k p) (sortDescByCount (ps.map (scaleCount k)))
        = (insertDesc p (sortDescByCount ps)).map (scaleCount k)
    rw [ih, insertDesc_map_scale hk]

theorem prefixMatch_map (f : Char → Char) :
    ∀ {pat s : List Char}, prefixMatch pat s = true → prefixMatch (pat.map f) (s.map f) = true := by
  intro pat
  induction pat with
  | nil => intro s _; rfl
  | cons a as ih =>
    intro s h
    cases s with
    | nil => simp [prefixMatch] at h
    | cons b bs =>
      simp only [prefixMatch, Bool.and_eq_true, beq_iff_eq] at h
      simp only [List.map_cons, prefixMatch, Bool.and_eq_true, beq_iff_eq]
      exact ⟨by rw [h.1], ih h.2⟩

theorem isSubstrOf_map (f : Char → Char) :
    ∀ {s pat : List Char}, isSubstrOf pat s = true → isSubstrOf (pat.map f) (s.map f) = true := by
  intro s
  induction s with
  | nil =>
    intro pat h
    exact prefixMatch_map f h
  | cons c cs ih =>
    intro pat h
    simp only [isSubstrOf, Bool.or_eq_true] at h ⊢
    rcases h with h | h
    · exact Or.inl (prefixMatch_map f h)
    · exact Or.inr (ih h)

/-- Every word of the constructor's vocabulary is already lowercase, so the
character-wise lowering fixes it. -/
theorem init_vocab_lower_fixed :
    ∀ v ∈ LegalDocumentProcessor.init.legal_terms, v.data.map Char.toLower = v.data := by
  decide

theorem counterItems_flatten_replicate {k : Nat} (hk : 0 < k) (l : List String) :
    counterItems ((List.replicate k l).flatten) = (counterItems l).map (scaleCount k) := by
  obtain ⟨m, rfl⟩ : ∃ m, k = m + 1 := ⟨k - 1, by omega⟩
  have hkeys : counterKeys ((List.replicate (m + 1) l).flatten) = counterKeys l := by
    rw [List.replicate_succ, List.flatten_cons]
    refine counterKeys_append_absorb fun x hx => ?_
    obtain ⟨l', hl', hxl'⟩ := List.mem_flatten.mp hx
    rwa [List.eq_of_mem_replicate hl'] at hxl'
  unfold counterItems
  rw [hkeys, List.map_map]
  refine List.map_congr_left fun t _ => ?_
  simp [scaleCount, count_flatten_replicate]

theorem filter_vocab_map_scale (vocab : List String) (k : Nat) :
    ∀ l : List (String × Nat),
      ((l.map (scaleCount k)).filter fun tc => vocabHit vocab (lowerStr tc.1))
        = (l.filter fun tc => vocabHit vocab (lowerStr tc.1)).map (scaleCount k) := by
  intro l
  induction l with
  | nil => rfl
  | cons q qs ih =>
    simp only [List.map_cons, List.filter_cons]
    by_cases h : vocabHit vocab (lowerStr q.1) = true
    · simp only [scaleCount, h, if_pos]
      simp only [List.map_cons]
      exact congrArg _ ih
    · simp only [scaleCount] at *
      simp only [Bool.not_eq_true] at h
      simp [h, ih]

theorem find_map_index {β : Type} (g : Nat → β) :
    ∀ (sched : List Nat) (i : Nat), i ∈ sched →
      ((sched.map fun j => (j, g j)).find? fun r => r.1 == i) = some (i, g i) := by
  intro sched
  induction sched with
  | nil => intro i hi; simp at hi
  | cons j js ih =>
    intro i hi
    by_cases hji : j = i
    · subst hji
      simp only [List.map_cons]
      rw [List.find?_cons_of_pos _ (by simp)]
    · simp only [List.map_cons]
      rw [List.find?_cons_of_neg _ (by simp [hji])]
      refine ih i ?_
      rcases List.mem_cons.mp hi with rfl | h
      · exact absurd rfl hji
      · exact h

theorem map_eq_range_map {β : Type} (f : String → β) :
    ∀ documents : List String,
      documents.map f = (List.range documents.length).map fun i => f (documents.getD i "") := by
  intro documents
  induction documents with
  | nil => rfl
  | cons d ds ih =>
    simp only [List.map_cons, List.length_cons, List.range_succ_eq_map, List.map_map,
      Function.comp_def, List.getD_cons_zero, List.getD_cons_succ]
    exact congrArg _ ih

theorem collectInOrder_perm (self : LegalDocumentProcessor) (ann : Annotator)
    (documents : List String) {sched : List Nat}
    (h : sched.Perm (List.range documents.length)) :
    collectInOrder documents.length (workerResults self ann documents sched)
      = documents.map (process_single_doc self ann) := by
  unfold collectInOrder
  rw [map_eq_range_map (process_single_doc self ann) documents]
  refine List.map_congr_left fun i hi => ?_
  have hi' : i ∈ sched := h.mem_iff.mpr hi
  have hfind := find_map_index
    (fun j => process_single_doc self ann (documents.getD j "")) sched i hi'
  rw [show workerResults self ann documents sched
      = sched.map fun j => (j, process_single_doc self ann (documents.getD j "")) from rfl]
  rw [hfind]
  rfl

theorem vocabHit_iff (vocab : List String) (s : String) :
    vocabHit vocab s = true ↔ ∃ v ∈ vocab, isSubstrOf v.data s.data = true := by
  unfold vocabHit
  exact List.any_eq_true

theorem lookup_cons_if {β : Type} (label k : String) (v : β) (es : List (String × β)) :
    List.lookup label ((k, v) :: es) = if label = k then some v else List.lookup label es := by
  rw [List.lookup_cons]
  by_cases h : label = k
  · have hb : (label == k) = true := beq_iff_eq.mpr h
    rw [hb, if_pos h]
  · have hb : (label == k) = false := by simp [h]
    rw [hb, if_neg h]

theorem lookup_map_update_self (label t : String) :
    ∀ entities : List (String × List String),
      List.lookup label (entities.map fun e => if e.1 == label then (e.1, e.2 ++ [t]) else e)
        = (List.lookup label entities).map (· ++ [t]) := by
  intro entities
  induction entities with
  | nil => rfl
  | cons e es ih =>
    obtain ⟨k, v⟩ := e
    simp only [List.map_cons]
    by_cases h : k = label
    · rw [if_pos (beq_iff_eq.mpr h)]
      rw [lookup_cons_if, lookup_cons_if]
      rw [if_pos h.symm, if_pos h.symm]
      rfl
    · rw [if_neg (by simp [h])]
      rw [lookup_cons_if, lookup_cons_if]
      rw [if_neg (Ne.symm h), if_neg (Ne.symm h)]
      exact ih

theorem lookup_map_update_other {label key : String} (hne : label ≠ key) (t : String) :
    ∀ entities : List (String × List String),
      List.lookup label (entities.map fun e => if e.1 == key then (e.1, e.2 ++ [t]) else e)
        = List.lookup label entities := by
  intro entities
  induction entities with
  | nil => rfl
  | cons e es ih =>
    obtain ⟨k, v⟩ := e
    simp only [List.map_cons]
    by_cases h : k = key
    · rw [if_pos (beq_iff_eq.mpr h)]
      have h2 : label ≠ k := fun hc => hne (hc.trans h)
      rw [lookup_cons_if, lookup_cons_if, if_neg h2, if_neg h2]
      exact ih
    · rw [if_neg (by simp [h])]
      rw [lookup_cons_if, lookup_cons_if]
      by_cases h2 : label = k
      · rw [if_pos h2, if_pos h2]
      · rw [if_neg h2, if_neg h2]
        exact ih

theorem lookup_append_singleton (label key : String) (v : List String) :
    ∀ entities : List (String × List String),
      List.lookup label (entities ++ [(key, v)])
        = ((List.lookup label entities).or (if label = key then some v else none)) := by
  intro entities
  induction entities with
  | nil =>
    rw [List.nil_append, lookup_cons_if]
    by_cases h : label = key
    · rw [if_pos h, if_pos h]
      rfl
    · rw [if_neg h, if_neg h]
      rfl
  | cons e es ih =>
    obtain ⟨k, w⟩ := e
    rw [List.cons_append, lookup_cons_if, lookup_cons_if]
    by_cases h2 : label = k
    · rw [if_pos h2, if_pos h2]
      rfl
    · rw [if_neg h2, if_neg h2]
      exact ih

theorem any_eq_isSome_lookup (label : String) :
    ∀ entities : List (String × List String),
      (entities.any fun e => e.1 == label) = (List.lookup label entities).isSome := by
  intro entities
  induction entities with
  | nil => rfl
  | cons e es ih =>
    obtain ⟨k, v⟩ := e
    rw [List.any_cons, lookup_cons_if]
    by_cases h : label = k
    · have hb : (k == label) = true := beq_iff_eq.mpr h.symm
      rw [hb, if_pos h]
      rfl
    · have hb : (k == label) = false := by simp [Ne.symm h]
      rw [hb, if_neg h, Bool.false_or]
      exact ih

theorem joinEnt_nil (o : Option (List String)) : joinEnt o [] = o := by
  cases o <;> simp [joinEnt]

theorem lookup_foldl_entStep (label : String) :
    ∀ (ents : List (String × String)) (acc : List (String × List String)),
      List.lookup label (ents.foldl entStep acc)
        = joinEnt (List.lookup label acc)
            (((ents.filter fun e => e.1 == label)).map Prod.snd) := by
  intro ents
  induction ents with
  | nil => intro acc; simp [joinEnt_nil]
  | cons e es ih =>
    intro acc
    rw [List.foldl_cons, ih (entStep acc e), List.filter_cons]
    by_cases hl : e.1 = label
    · subst hl
      rw [if_pos (beq_iff_eq.mpr rfl)]
      simp only [List.map_cons]
      unfold entStep
      rw [any_eq_isSome_lookup e.1 acc]
      cases hacc : List.lookup e.1 acc with
      | some v =>
        rw [Option.isSome_some, if_pos rfl, lookup_map_update_self e.1 e.2 acc, hacc]
        simp [joinEnt, List.append_assoc]
      | none =>
        rw [Option.isSome_none, if_neg (by simp), lookup_append_singleton e.1 e.1 [e.2] acc,
          hacc, if_pos rfl]
        simp [joinEnt, Option.or]
    · rw [if_neg (by simp [hl])]
      have hstep : List.lookup label (entStep acc e) = List.lookup label acc := by
        unfold entStep
        split
        · exact lookup_map_update_other (fun hc => hl hc.symm) e.2 acc
        · rw [lookup_append_singleton label e.1 [e.2] acc, if_neg (fun hc => hl hc.symm)]
          cases List.lookup label acc <;> rfl
      rw [hstep]

/-! ### The claims -/

/-- C1.  For every document string `d` (including the empty string),
`extract_clauses(d)` returns a mapping whose key set is exactly
{termination, liability, confidentiality}, each key mapping to a list of
sentence strings that is possibly empty. -/
theorem claim1_extract_clauses_keys (self : LegalDocumentProcessor) (ann : Annotator)
    (d : String) :
    (extract_clauses self ann d).map Prod.fst = ["termination", "liability", "confidentiality"] ∧
    ∀ p ∈ extract_clauses self ann d, ∀ s ∈ p.2, s ∈ docSentences ann d := by
  constructor
  · simp [extract_clauses, clausePatterns]
  · intro p hp s hs
    simp only [extract_clauses, List.mem_map] at hp
    obtain ⟨q, _, rfl⟩ := hp
    exact List.mem_of_mem_filter hs

theorem claim1_witness :
    "Terminate now" ∈ docSentences testAnn "Terminate now" :=
  (claim1_extract_clauses_keys .init testAnn "Terminate now").2
    ("termination", ["Terminate now"]) (by decide) "Terminate now" (by decide)

/-- C2.  In `extract_clauses`, category membership is decided independently per
category: each category's list is exactly the document-ordered sublist of
sentences its own pattern matches (so a sentence joins every category it
matches — zero, one, or several — with no mutual exclusion and no
deduplication across categories). -/
theorem claim2_category_independence (self : LegalDocumentProcessor) (ann : Annotator)
    (d : String) :
    ∀ category stems, (category, stems) ∈ clausePatterns →
      clauseList (extract_clauses self ann d) category
          = (docSentences ann d).filter (reSearch stems) ∧
      (clauseList (extract_clauses self ann d) category).Sublist (docSentences ann d) ∧
      ∀ s ∈ docSentences ann d,
        (s ∈ clauseList (extract_clauses self ann d) category ↔ reSearch stems s = true) := by
  intro category stems hmem
  have hchar : clauseList (extract_clauses self ann d) category
      = (docSentences ann d).filter (reSearch stems) := by
    simp only [clausePatterns, List.mem_cons, List.not_mem_nil, or_false,
      Prod.mk.injEq] at hmem
    rcases hmem with ⟨rfl, rfl⟩ | ⟨rfl, rfl⟩ | ⟨rfl, rfl⟩ <;>
      simp [clauseList, extract_clauses, clausePatterns, lookup_cons_if]
  refine ⟨hchar, hchar ▸ List.filter_sublist _, fun s hs => ?_⟩
  rw [hchar]
  constructor
  · intro h
    exact (List.mem_filter.mp h).2
  · intro h
    exact List.mem_filter.mpr ⟨hs, h⟩

theorem claim2_witness :
    clauseList (extract_clauses .init testAnn "You may cancel; we stay liable.") "termination"
        = ["You may cancel; we stay liable."] ∧
    ("You may cancel; we stay liable."
        ∈ clauseList (extract_clauses .init testAnn "You may cancel; we stay liable.") "liability") := by
  have h := claim2_category_independence .init testAnn "You may cancel; we stay liable."
  refine ⟨(h "termination" ["terminate", "termination", "cancel"] (by decide)).1.trans (by decide), ?_⟩
  exact ((h "liability" ["liable", "liability", "indemnify", "indemnification"]
    (by decide)).2.2 "You may cancel; we stay liable." (by decide)).mpr (by decide)

/-- C3 (counterexample).  The claim quantifies over every integer `top_n`, but
Python's slice `l[:top_n]` treats a negative `top_n` as counting from the end:
already for `documents = []` and `top_n = -1` the result is `[]`, whose length
0 is not ≤ -1. -/
theorem claim3_counterexample :
    ¬ (((analyze_term_frequency .init testAnn [] (-1)).length : Int) ≤ -1) := by
  decide

/-- C3 (amended: the length bound holds for every nonnegative `top_n`; the
remaining clauses hold for every integer `top_n`).  The returned list has
length at most `top_n` when `0 ≤ top_n` and is sorted non-increasing by count;
an empty documents sequence yields the empty list; and a `top_n` at least the
number of distinct filtered terms returns all entries. -/
theorem claim3_ranked_list (self : LegalDocumentProcessor) (ann : Annotator)
    (documents : List String) (top_n : Int) :
    (0 ≤ top_n → ((analyze_term_frequency self ann documents top_n).length : Int) ≤ top_n) ∧
    SortedDescByCount (analyze_term_frequency self ann documents top_n) ∧
    analyze_term_frequency self ann [] top_n = [] ∧
    (((rankedAll self ann documents).length : Int) ≤ top_n →
      analyze_term_frequency self ann documents top_n = rankedAll self ann documents) := by
  refine ⟨fun h => length_pySliceTo_le _ h, ?_, ?_, fun h => pySliceTo_of_length_le h⟩
  · exact List.Pairwise.sublist (pySliceTo_sublist _ _) (sortDescByCount_sorted _)
  · simp [analyze_term_frequency, rankedAll, counterItems, counterKeys, counterKeysAux,
      sortDescByCount, pySliceTo_nil]

theorem claim3_witness :
    ((analyze_term_frequency .init testAnn ["docA"] 5).length : Int) ≤ 5 ∧
    analyze_term_frequency .init testAnn ["docA"] 5 = rankedAll .init testAnn ["docA"] := by
  have h := claim3_ranked_list .init testAnn ["docA"] 5
  exact ⟨h.1 (by decide), h.2.2.2 (by decide)⟩

/-- C4.  Every (term, count) pair returned by `analyze_term_frequency`
satisfies: the term contains, as a case-insensitive substring, at least one
entry of the fixed legal vocabulary, and the count is strictly positive. -/
theorem claim4_term_invariants (ann : Annotator) (documents : List String) (top_n : Int) :
    ∀ p ∈ analyze_term_frequency .init ann documents top_n,
      (∃ v ∈ LegalDocumentProcessor.init.legal_terms,
        isSubstrOf v.data (lowerStr p.1).data = true) ∧ 1 ≤ p.2 := by
  intro p hp
  have hp1 : p ∈ rankedAll .init ann documents := (pySliceTo_sublist _ _).mem hp
  simp only [rankedAll] at hp1
  have hp2 := (sortDescByCount_perm _).mem_iff.mp hp1
  obtain ⟨hp3, hvocab⟩ := List.mem_filter.mp hp2
  refine ⟨(vocabHit_iff _ _).mp hvocab, ?_⟩
  simp only [counterItems, List.mem_map] at hp3
  obtain ⟨t, ht, rfl⟩ := hp3
  exact List.count_pos_iff.mpr (counterKeys_subset ht)

theorem claim4_witness :
    (∃ v ∈ LegalDocumentProcessor.init.legal_terms,
      isSubstrOf v.data (lowerStr "liability cap").data = true) ∧
    1 ≤ (("liability cap", 1) : String × Nat).2 :=
  claim4_term_invariants testAnn ["docA"] 5 ("liability cap", 1) (by decide)

/-- C5.  For every document `d` and positive `k`, analysing `d` repeated `k`
times yields, entry for entry, each term with exactly `k` times its count in
the single-document run with the same `top_n`. -/
theorem claim5_count_additivity (self : LegalDocumentProcessor) (ann : Annotator)
    (d : String) (top_n : Int) (k : Nat) (hk : 1 ≤ k) :
    analyze_term_frequency self ann (List.replicate k d) top_n
      = (analyze_term_frequency self ann [d] top_n).map (scaleCount k) := by
  have hk0 : 0 < k := hk
  simp only [analyze_term_frequency, rankedAll, List.map_replicate, List.map_cons, List.map_nil]
  rw [foldl_append_eq_flatten, foldl_append_eq_flatten]
  simp only [List.nil_append, List.flatten_cons, List.flatten_nil, List.append_nil]
  rw [counterItems_flatten_replicate hk0, filter_vocab_map_scale, sortDescByCount_map_scale hk0,
    pySliceTo_map]

theorem claim5_witness :
    analyze_term_frequency .init testAnn (List.replicate 2 "docA") 5
      = (analyze_term_frequency .init testAnn ["docA"] 5).map (scaleCount 2) :=
  claim5_count_additivity .init testAnn "docA" 5 2 (by decide)

/-- C6.  The summary selects, in document order, every sentence with strictly
more than 3 noun chunks, takes the first 3 of them, and joins their texts with
single spaces; with at most 3 qualifying sentences all of them are used, and
with none the summary is the empty string. -/
theorem claim6_summary (self : LegalDocumentProcessor) (ann : Annotator) (d : String) :
    (get_document_insights self ann d).summary
        = String.intercalate " "
            ((((ann d).sents.filter fun sent => 3 < sent.nounChunks.length).map
              SentSpan.text).take 3) ∧
    ((ann d).sents.filter fun sent => 3 < sent.nounChunks.length).Sublist (ann d).sents ∧
    (((ann d).sents.filter fun sent => 3 < sent.nounChunks.length).length ≤ 3 →
      (get_document_insights self ann d).summary
        = String.intercalate " "
            (((ann d).sents.filter fun sent => 3 < sent.nounChunks.length).map SentSpan.text)) ∧
    (((ann d).sents.filter fun sent => 3 < sent.nounChunks.length) = [] →
      (get_document_insights self ann d).summary = "") := by
  have h1 : (get_document_insights self ann d).summary
      = String.intercalate " "
          ((((ann d).sents.filter fun sent => 3 < sent.nounChunks.length).map
            SentSpan.text).take 3) := rfl
  refine ⟨h1, List.filter_sublist _, fun hlen => ?_, fun hempty => ?_⟩
  · rw [h1]
    congr 1
    exact List.take_of_length_le (by simpa using hlen)
  · rw [h1, hempty]
    rfl

theorem claim6_witness :
    ((testAnn "docB").sents.filter fun sent => 3 < sent.nounChunks.length).length ≤ 3 ∧
    (get_document_insights .init testAnn "docB").summary = "" := by
  have h := claim6_summary .init testAnn "docB"
  exact ⟨by decide, h.2.2.2 (by decide)⟩

/-- C7.  `document_stats`: `sentences` is the number of annotator sentence
spans, `total_words` the number of annotator tokens, and `entities` maps each
entity-category label to the document-ordered list of entity texts of that
label (labels with no entity are absent). -/
theorem claim7_document_stats (self : LegalDocumentProcessor) (ann : Annotator) (d : String) :
    (get_document_insights self ann d).document_stats.sentences = (ann d).sents.length ∧
    (get_document_insights self ann d).document_stats.total_words = (ann d).tokens.length ∧
    ∀ label : String,
      List.lookup label (get_document_insights self ann d).document_stats.entities
        = if ((ann d).ents.filter fun e => e.1 == label) = [] then none
          else some (((ann d).ents.filter fun e => e.1 == label).map Prod.snd) := by
  refine ⟨rfl, rfl, fun label => ?_⟩
  have h : (get_document_insights self ann d).document_stats.entities
      = ((ann d).ents).foldl entStep [] := rfl
  rw [h, lookup_foldl_entStep]
  by_cases he : ((ann d).ents.filter fun e => e.1 == label) = []
  · simp [joinEnt, he, List.lookup]
  · have hne : (((ann d).ents.filter fun e => e.1 == label).map Prod.snd).isEmpty = false := by
      simp [List.isEmpty_iff, he]
    simp [joinEnt, hne, he, List.lookup]

/-- C8.  The aggregation-stage vocabulary filter is a harmless no-op: every
counted term is already lowercased and already contains a vocabulary entry, so
dropping the second filter never changes the returned ranked list. -/
theorem claim8_filter_noop (ann : Annotator) (documents : List String) (top_n : Int) :
    analyze_term_frequency .init ann documents top_n
      = analyze_term_frequency_nofilter .init ann documents top_n := by
  have key : ((counterItems ((documents.map (process_single_doc .init ann)).foldl
          (· ++ ·) [])).filter
        fun tc => vocabHit LegalDocumentProcessor.init.legal_terms (lowerStr tc.1))
      = counterItems ((documents.map (process_single_doc .init ann)).foldl (· ++ ·) []) := by
    refine List.filter_eq_self.mpr fun tc htc => ?_
    simp only [counterItems, List.mem_map] at htc
    obtain ⟨t, ht, rfl⟩ := htc
    have ht2 : t ∈ (documents.map (process_single_doc .init ann)).foldl (· ++ ·) [] :=
      counterKeys_subset ht
    rw [foldl_append_eq_flatten, List.nil_append] at ht2
    obtain ⟨terms, hterms, htmem⟩ := List.mem_flatten.mp ht2
    obtain ⟨doc, _, rfl⟩ := List.mem_map.mp hterms
    simp only [process_single_doc, List.mem_map] at htmem
    obtain ⟨chunk, hchunk, rfl⟩ := htmem
    have hhit : vocabHit LegalDocumentProcessor.init.legal_terms (lowerStr chunk) = true :=
      (List.mem_filter.mp hchunk).2
    obtain ⟨v, hv, hsub⟩ := (vocabHit_iff _ _).mp hhit
    refine (vocabHit_iff _ _).mpr ⟨v, hv, ?_⟩
    have hmap := isSubstrOf_map Char.toLower hsub
    rw [init_vocab_lower_fixed v hv] at hmap
    exact hmap
  simp only [analyze_term_frequency, analyze_term_frequency_nofilter, rankedAll]
  rw [key]

/-- C9.  The pattern set and the vocabulary are fixed at construction and never
mutated: no sequence of API calls changes the processor state, and every call
of `extract_clauses` tests the sentences against the same three fixed
patterns, whatever the state. -/
theorem claim9_immutability (ann : Annotator) :
    (∀ calls : List ApiCall,
      runCalls ann LegalDocumentProcessor.init calls = LegalDocumentProcessor.init) ∧
    (∀ calls : List ApiCall,
      (runCalls ann LegalDocumentProcessor.init calls).legal_terms
        = ["liability", "indemnification", "termination", "warranty",
           "confidentiality", "arbitration", "jurisdiction", "force majeure"]) ∧
    (∀ (self : LegalDocumentProcessor) (d : String),
      (extract_clausesM self ann d).1
        = clausePatterns.map fun p => (p.1, (docSentences ann d).filter fun s => reSearch p.2 s)) := by
  have hrun : ∀ (calls : List ApiCall) (self : LegalDocumentProcessor),
      runCalls ann self calls = self := by
    intro calls
    induction calls with
    | nil => intro self; rfl
    | cons c cs ih =>
      intro self
      have hstep : stepCall ann self c = self := by cases c <;> rfl
      rw [runCalls, List.foldl_cons, hstep]
      exact ih self
  exact ⟨fun calls => hrun calls _, fun calls => by rw [hrun]; rfl, fun self d => rfl⟩

/-- C10.  With a fixed annotator, `analyze_term_frequency` is deterministic
including tie order: whatever orders the worker pool completes in, the results
are collected back in input (document) order, so two runs on the same
documents and `top_n` return the identical ranked list — the one of the plain
in-order pipeline. -/
theorem claim10_determinism (self : LegalDocumentProcessor) (ann : Annotator)
    (documents : List String) (top_n : Int) (sched₁ sched₂ : List Nat)
    (h₁ : sched₁.Perm (List.range documents.length))
    (h₂ : sched₂.Perm (List.range documents.length)) :
    analyze_term_frequency_sched self ann sched₁ documents top_n
        = analyze_term_frequency_sched self ann sched₂ documents top_n ∧
    analyze_term_frequency_sched self ann sched₁ documents top_n
        = analyze_term_frequency self ann documents top_n := by
  have key : ∀ sched, sched.Perm (List.range documents.length) →
      analyze_term_frequency_sched self ann sched documents top_n
        = analyze_term_frequency self ann documents top_n := by
    intro sched h
    simp only [analyze_term_frequency_sched, analyze_term_frequency, rankedAll]
    rw [collectInOrder_perm self ann documents h]
  exact ⟨(key _ h₁).trans (key _ h₂).symm, key _ h₁⟩

theorem claim10_witness :
    analyze_term_frequency_sched .init testAnn [1, 0] ["docA", "docB"] 3
        = analyze_term_frequency_sched .init testAnn [0, 1] ["docA", "docB"] 3 ∧
    analyze_term_frequency_sched .init testAnn [1, 0] ["docA", "docB"] 3
        = analyze_term_frequency .init testAnn ["docA", "docB"] 3 :=
  claim10_determinism .init testAnn ["docA", "docB"] 3 [1, 0] [0, 1] (by decide) (by decide)

end LegalDoc
